import Mathlib

/-!
Verification of `rnnvis/state_processor.py` (hidden-state processing pipeline).

The Python source is shallowly embedded: numpy arrays become nested lists of
rationals, fallible operations (index errors, `None` dereferences, shape
errors raised by numpy) return `Option` or `Except`, and Python list
comprehensions that index parallel arrays become explicit recursions that
fail exactly where the Python code would raise.  Machine floats are modelled
by the rationals; `np.std` is modelled up to its final monotone square root,
which is passed in as a black-box function (no claim inspects std values).
-/

/-- A numpy 2D array `[n_layer, n_units]`: one state record. -/
abbrev StateMat := List (List ℚ)

/-- Shape of a 2D array: the list of row lengths (its length is the row count). -/
def matShape (m : StateMat) : List ℕ := m.map List.length

/-- Sequencing of a fallible map over a list: Python list construction where
any raised exception aborts the whole computation. -/
def optionMapM (f : α → Option β) : List α → Option (List β)
  | [] => some []
  | a :: t =>
    match f a, optionMapM f t with
    | some b, some bs => some (b :: bs)
    | _, _ => none

theorem optionMapM_length {f : α → Option β} {l : List α} {out : List β}
    (h : optionMapM f l = some out) : out.length = l.length := by
  induction l generalizing out with
  | nil => simp [optionMapM] at h; simp [← h]
  | cons a t ih =>
    simp only [optionMapM] at h
    cases hfa : f a with
    | none => rw [hfa] at h; simp at h
    | some b =>
      rw [hfa] at h
      cases hft : optionMapM f t with
      | none => rw [hft] at h; simp at h
      | some bs =>
        rw [hft] at h
        simp at h
        subst h
        simp [ih hft]

theorem optionMapM_eq_map {f : α → Option β} {g : α → β} {l : List α}
    (h : ∀ a ∈ l, f a = some (g a)) : optionMapM f l = some (l.map g) := by
  induction l with
  | nil => rfl
  | cons a t ih =>
    have ha := h a (List.mem_cons_self a t)
    have ht := ih (fun x hx => h x (List.mem_cons_of_mem a hx))
    simp [optionMapM, ha, ht]

theorem optionMapM_mem {f : α → Option β} {l : List α} {out : List β}
    (h : optionMapM f l = some out) : ∀ b ∈ out, ∃ a ∈ l, f a = some b := by
  induction l generalizing out with
  | nil => simp [optionMapM] at h; subst h; simp
  | cons a t ih =>
    simp only [optionMapM] at h
    cases hfa : f a with
    | none => rw [hfa] at h; simp at h
    | some b =>
      rw [hfa] at h
      cases hft : optionMapM f t with
      | none => rw [hft] at h; simp at h
      | some bs =>
        rw [hft] at h
        simp at h
        subst h
        intro c hc
        rcases List.mem_cons.mp hc with hc | hc
        · exact ⟨a, List.mem_cons_self a t, by rw [hfa, hc]⟩
        · rcases ih hft c hc with ⟨x, hx, hfx⟩
          exact ⟨x, List.mem_cons_of_mem a hx, hfx⟩

theorem optionMapM_get? {f : α → Option β} {l : List α} {out : List β}
    (h : optionMapM f l = some out) (i : ℕ) (a : α) (ha : l.get? i = some a) :
    ∃ b, out.get? i = some b ∧ f a = some b := by
  induction l generalizing out i with
  | nil => simp at ha
  | cons x t ih =>
    simp only [optionMapM] at h
    cases hfa : f x with
    | none => rw [hfa] at h; simp at h
    | some b =>
      rw [hfa] at h
      cases hft : optionMapM f t with
      | none => rw [hft] at h; simp at h
      | some bs =>
        rw [hft] at h
        simp at h
        subst h
        cases i with
        | zero =>
          simp at ha
          subst ha
          exact ⟨b, rfl, hfa⟩
        | succ j =>
          rw [List.get?_cons_succ] at ha
          rw [List.get?_cons_succ]
          exact ih hft j ha

/-! ## Differencer (`cal_diff`, `fetch_state_of_eval`) -/

/-- Source `cal_diff`: the loop `for i in range(len(arrays)-1):
diff_arrays.append(arrays[i+1] - arrays[i])`, written as structural recursion
over consecutive pairs. -/
def cal_diff [Sub α] : List α → List α
  | a :: b :: t => (b - a) :: cal_diff (b :: t)
  | _ => []

/-- Source `fetch_state_of_eval`, specialised to a single state field: the
records (pairs of `word_id` and the value of that field) are already fetched
from the database.  When `diff` is set the code evaluates
`[state[0]] + cal_diff(state)`, which raises `IndexError` on an empty record
list; that failure is the `none` case. -/
def fetch_state_of_eval [Sub α] (records : List (ℕ × α)) (diff : Bool) :
    Option (List ℕ × List α) :=
  let word_ids := records.map Prod.fst
  let state := records.map Prod.snd
  if diff then
    match state with
    | [] => none
    | s0 :: rest => some (word_ids, s0 :: cal_diff (s0 :: rest))
  else
    some (word_ids, state)

theorem cal_diff_length [Sub α] (l : List α) : (cal_diff l).length = l.length - 1 := by
  induction l with
  | nil => rfl
  | cons a t ih =>
    cases t with
    | nil => rfl
    | cons b t2 => simpa [cal_diff] using ih

theorem cal_diff_get? [Sub α] (l : List α) (i : ℕ) (a b : α)
    (ha : l.get? i = some a) (hb : l.get? (i + 1) = some b) :
    (cal_diff l).get? i = some (b - a) := by
  induction l generalizing i with
  | nil => simp at ha
  | cons x t ih =>
    cases t with
    | nil =>
      cases i with
      | zero => simp at hb
      | succ j => simp at hb
    | cons y t2 =>
      cases i with
      | zero =>
        simp at ha hb
        subst ha
        subst hb
        rfl
      | succ j =>
        simp only [cal_diff]
        simp only [List.get?_cons_succ] at ha hb ⊢
        exact ih j ha hb

/-- C1.  For a state field with the diff flag set and a non-empty fetched
record sequence, `fetch_state_of_eval` returns a state sequence of the same
length as the input whose first element is the first input state and whose
element at every position `i ≥ 1` is the difference of the input states at
positions `i` and `i-1`. -/
theorem c1_diff_keeps_first_then_deltas [Sub α] (records : List (ℕ × α))
    (hne : records ≠ []) :
    ∃ wids out, fetch_state_of_eval records true = some (wids, out) ∧
      out.length = records.length ∧
      out.get? 0 = (records.map Prod.snd).get? 0 ∧
      ∀ i a b, 1 ≤ i →
        (records.map Prod.snd).get? (i - 1) = some a →
        (records.map Prod.snd).get? i = some b →
        out.get? i = some (b - a) := by
  cases hrec : records with
  | nil => exact absurd hrec hne
  | cons r rs =>
    refine ⟨(r :: rs).map Prod.fst, r.2 :: cal_diff ((r :: rs).map Prod.snd), ?_, ?_, ?_, ?_⟩
    · simp [fetch_state_of_eval]
    · simp [cal_diff_length]
    · simp
    · intro i a b h1 ha hb
      cases i with
      | zero => omega
      | succ j =>
        simp only [Nat.add_sub_cancel] at ha
        have hd := cal_diff_get? ((r :: rs).map Prod.snd) j a b ha hb
        simpa using hd

/-- Witness for C1 at the concrete record list
`[(7, 1), (8, 3), (9, 7)]`: the diffed states are `[1, 2, 4]`. -/
theorem c1_witness :
    ([((7 : ℕ), (1 : ℤ)), (8, 3), (9, 7)] ≠ []) ∧
    ∃ wids out,
      fetch_state_of_eval [((7 : ℕ), (1 : ℤ)), (8, 3), (9, 7)] true = some (wids, out) ∧
      out.length = 3 ∧
      out.get? 0 = some 1 ∧ out.get? 1 = some 2 ∧ out.get? 2 = some 4 := by
  refine ⟨by decide, ?_⟩
  rcases c1_diff_keeps_first_then_deltas [((7 : ℕ), (1 : ℤ)), (8, 3), (9, 7)] (by decide)
    with ⟨wids, out, heq, hlen, h0, hdelta⟩
  refine ⟨wids, out, heq, hlen, ?_, ?_, ?_⟩
  · rw [h0]; rfl
  · have := hdelta 1 1 3 (by decide) (by decide) (by decide)
    simpa using this
  · have := hdelta 2 3 7 (by decide) (by decide) (by decide)
    simpa using this

/-! ## Grouper (`sort_by_id`) -/

/-- One iteration of the `sort_by_id` loop body: `if id_to_states[id_] is
None: id_to_states[id_] = []` followed by `id_to_states[id_].append(states[k])`.
The net effect replaces the bucket at `id` by the previous contents (empty
when the bucket was `None`) with the new record appended. -/
def bucketAppend (buckets : List (Option (List α))) (id : ℕ) (s : α) :
    List (Option (List α)) :=
  let prev := (buckets[id]?.getD none).getD []
  buckets.set id (some (prev ++ [s]))

/-- The `for k, id_ in enumerate(word_ids)` loop of `sort_by_id`, walking the
`states` list in step with `word_ids`; `states[k]` raises `IndexError` when
`states` is exhausted (the `none` case), and so does an id beyond the
bucket range. -/
def fillBuckets : List ℕ → List α → List (Option (List α)) →
    Option (List (Option (List α)))
  | [], _, buckets => some buckets
  | id :: ids, s :: ss, buckets =>
    if id < buckets.length then fillBuckets ids ss (bucketAppend buckets id s)
    else none
  | _ :: _, [], _ => none

/-- Source `sort_by_id`: `max(word_ids)` raises `ValueError` on an empty
sequence (the `none` case); otherwise a bucket list of length `max_id + 1`
initialised to `None` is filled by a single scan. -/
def sort_by_id (word_ids : List ℕ) (states : List α) :
    Option (List (Option (List α))) :=
  match word_ids.max? with
  | none => none
  | some max_id => fillBuckets word_ids states (List.replicate (max_id + 1) none)

/-- Number of records in one bucket (`None` holds no records). -/
def bucketSize : Option (List α) → ℕ
  | none => 0
  | some l => l.length

/-- Total number of records across all buckets. -/
def totalSize (buckets : List (Option (List α))) : ℕ :=
  (buckets.map bucketSize).sum

theorem bucketAppend_length (buckets : List (Option (List α))) (id : ℕ) (s : α) :
    (bucketAppend buckets id s).length = buckets.length := by
  simp [bucketAppend]

theorem totalSize_bucketAppend (buckets : List (Option (List α))) (id : ℕ) (s : α)
    (h : id < buckets.length) :
    totalSize (bucketAppend buckets id s) = totalSize buckets + 1 := by
  induction buckets generalizing id with
  | nil => simp at h
  | cons b t ih =>
    cases id with
    | zero =>
      simp only [bucketAppend, List.getElem?_cons_zero, List.set]
      cases b <;> simp [totalSize, bucketSize] <;> omega
    | succ j =>
      have hj : j < t.length := by simpa using h
      have ht := ih j hj
      simp only [bucketAppend, List.getElem?_cons_succ, List.set] at ht ⊢
      simp only [totalSize, List.map_cons, List.sum_cons] at ht ⊢
      omega

theorem bucketAppend_getElem?_ne (buckets : List (Option (List α))) (id j : ℕ)
    (s : α) (h : id ≠ j) : (bucketAppend buckets id s)[j]? = buckets[j]? := by
  simp only [bucketAppend]
  rw [List.getElem?_set_ne h]

theorem bucketAppend_getElem?_eq (buckets : List (Option (List α))) (id : ℕ)
    (s : α) (h : id < buckets.length) :
    (bucketAppend buckets id s)[id]? =
      some (some (((buckets[id]?.getD none).getD []) ++ [s])) := by
  simp only [bucketAppend]
  rw [List.getElem?_set_self h]

theorem fillBuckets_spec (ids : List ℕ) (ss : List α)
    (buckets : List (Option (List α)))
    (hlen : ids.length = ss.length)
    (hrange : ∀ id ∈ ids, id < buckets.length) :
    ∃ bs, fillBuckets ids ss buckets = some bs ∧
      bs.length = buckets.length ∧
      totalSize bs = totalSize buckets + ids.length ∧
      (∀ i l, bs[i]? = some (some l) → ∀ s ∈ l,
        (i, s) ∈ ids.zip ss ∨ ∃ l0, buckets[i]? = some (some l0) ∧ s ∈ l0) ∧
      (∀ j, j ∉ ids → bs[j]? = buckets[j]?) := by
  induction ids generalizing ss buckets with
  | nil =>
    refine ⟨buckets, rfl, rfl, by simp, ?_, ?_⟩
    · intro i l hl s hs
      exact Or.inr ⟨l, hl, hs⟩
    · intro j _; rfl
  | cons id ids ih =>
    cases ss with
    | nil => simp at hlen
    | cons s ss2 =>
      have hid : id < buckets.length := hrange id (List.mem_cons_self id ids)
      have hlen2 : ids.length = ss2.length := by simpa using hlen
      have hrange2 : ∀ x ∈ ids, x < (bucketAppend buckets id s).length := by
        intro x hx
        rw [bucketAppend_length]
        exact hrange x (List.mem_cons_of_mem id hx)
      rcases ih ss2 (bucketAppend buckets id s) hlen2 hrange2 with
        ⟨bs, heq, hblen, hsize, hmem, huntouched⟩
      refine ⟨bs, ?_, ?_, ?_, ?_, ?_⟩
      · simp only [fillBuckets, if_pos hid]
        exact heq
      · rw [hblen, bucketAppend_length]
      · rw [hsize, totalSize_bucketAppend buckets id s hid]
        simp only [List.length_cons]
        omega
      · intro i l hl x hx
        rcases hmem i l hl x hx with hin | ⟨l0, hl0, hxl0⟩
        · exact Or.inl (List.mem_cons_of_mem _ hin)
        · by_cases hij : id = i
          · subst hij
            rw [bucketAppend_getElem?_eq buckets id s hid] at hl0
            have hl0e : ((buckets[id]?.getD none).getD []) ++ [s] = l0 := by
              simpa using hl0
            rcases List.mem_append.mp (hl0e ▸ hxl0) with hxprev | hxs
            · cases hb : buckets[id]? with
              | none => rw [hb] at hxprev; simp at hxprev
              | some b =>
                cases b with
                | none => rw [hb] at hxprev; simp at hxprev
                | some lb =>
                  rw [hb] at hxprev
                  exact Or.inr ⟨lb, rfl, by simpa using hxprev⟩
            · have hxeq : x = s := by simpa using hxs
              subst hxeq
              exact Or.inl (List.mem_cons_self _ _)
          · rw [bucketAppend_getElem?_ne buckets id i s hij] at hl0
            exact Or.inr ⟨l0, hl0, hxl0⟩
      · intro j hj
        have hj1 : j ∉ ids := fun hc => hj (List.mem_cons_of_mem id hc)
        have hj2 : id ≠ j := fun hc => hj (hc ▸ List.mem_cons_self id ids)
        rw [huntouched j hj1, bucketAppend_getElem?_ne buckets id j s hj2]

theorem max?_bound {l : List ℕ} : ∀ {m : ℕ}, l.max? = some m → ∀ x ∈ l, x ≤ m := by
  induction l with
  | nil => intro m h x hx; simp at hx
  | cons a t ih =>
    intro m h x hx
    rw [List.max?_cons] at h
    cases ht : t.max? with
    | none =>
      rw [ht] at h
      simp only [Option.elim] at h
      have hm : a = m := by simpa using h
      rw [List.max?_eq_none_iff] at ht
      subst ht
      have hxa : x = a := by simpa using hx
      omega
    | some mt =>
      rw [ht] at h
      simp only [Option.elim] at h
      have hm : max a mt = m := by simpa using h
      rcases List.mem_cons.mp hx with hxa | hxt
      · rw [hxa, ← hm]; exact le_max_left _ _
      · rw [← hm]; exact le_trans (ih ht x hxt) (le_max_right _ _)

/-- C7.  For a non-empty paired `(word_ids, states)` input with equal
lengths, `sort_by_id` succeeds, the total record count over all buckets
equals the input length, every record of bucket `i` appeared in the input
paired with word id `i`, and every in-range id absent from the input is an
absent (`None`) bucket. -/
theorem c7_grouper_partitions (word_ids : List ℕ) (states : List α)
    (hne : word_ids ≠ []) (hlen : word_ids.length = states.length) :
    ∃ bs, sort_by_id word_ids states = some bs ∧
      totalSize bs = word_ids.length ∧
      (∀ i l, bs[i]? = some (some l) → ∀ s ∈ l, (i, s) ∈ word_ids.zip states) ∧
      (∀ j, j < bs.length → j ∉ word_ids → bs[j]? = some none) := by
  cases hmax : word_ids.max? with
  | none =>
    rw [List.max?_eq_none_iff] at hmax
    exact absurd hmax hne
  | some m =>
    have hrange : ∀ id ∈ word_ids,
        id < (List.replicate (m + 1) (none : Option (List α))).length := by
      intro id hid
      have := max?_bound hmax id hid
      simp only [List.length_replicate]
      omega
    rcases fillBuckets_spec word_ids states (List.replicate (m + 1) none) hlen hrange with
      ⟨bs, heq, hblen, hsize, hmem, huntouched⟩
    refine ⟨bs, ?_, ?_, ?_, ?_⟩
    · simp only [sort_by_id, hmax]
      exact heq
    · rw [hsize]
      simp [totalSize, List.map_replicate, List.sum_replicate, bucketSize]
    · intro i l hl s hs
      rcases hmem i l hl s hs with hin | ⟨l0, hl0, _⟩
      · exact hin
      · rw [List.getElem?_replicate] at hl0
        by_cases hi : i < m + 1 <;> simp [hi] at hl0
    · intro j hjlen hjabs
      rw [huntouched j hjabs, List.getElem?_replicate]
      rw [hblen] at hjlen
      simp only [List.length_replicate] at hjlen
      rw [if_pos hjlen]

/-- Witness for C7 at word ids `[2, 0, 2]` and integer states `[10, 20, 30]`. -/
theorem c7_witness :
    ([2, 0, 2] : List ℕ) ≠ [] ∧
    ∃ bs, sort_by_id [2, 0, 2] ([10, 20, 30] : List ℤ) = some bs ∧
      totalSize bs = ([2, 0, 2] : List ℕ).length ∧
      (∀ i l, bs[i]? = some (some l) → ∀ s ∈ l,
        (i, s) ∈ ([2, 0, 2] : List ℕ).zip ([10, 20, 30] : List ℤ)) ∧
      (∀ j, j < bs.length → j ∉ ([2, 0, 2] : List ℕ) → bs[j]? = some none) :=
  ⟨by decide, c7_grouper_partitions [2, 0, 2] [10, 20, 30] (by decide) (by decide)⟩

/-- C10.  `sort_by_id` raises on an empty `word_ids` sequence (`max` of an
empty sequence raises `ValueError`), while on a non-empty sequence paired
with equally many states it succeeds and returns `max(word_ids) + 1` buckets. -/
theorem c10_sort_by_id_empty_raises (word_ids : List ℕ) (states : List α) :
    (word_ids = [] → sort_by_id word_ids states = none) ∧
    (word_ids ≠ [] → word_ids.length = states.length →
      ∀ m, word_ids.max? = some m →
        ∃ bs, sort_by_id word_ids states = some bs ∧ bs.length = m + 1) := by
  constructor
  · intro h
    subst h
    rfl
  · intro _ hlen m hmax
    have hrange : ∀ id ∈ word_ids,
        id < (List.replicate (m + 1) (none : Option (List α))).length := by
      intro id hid
      have := max?_bound hmax id hid
      simp only [List.length_replicate]
      omega
    rcases fillBuckets_spec word_ids states (List.replicate (m + 1) none) hlen hrange with
      ⟨bs, heq, hblen, _, _, _⟩
    refine ⟨bs, ?_, ?_⟩
    · simp only [sort_by_id, hmax]
      exact heq
    · rw [hblen]; simp

/-- Witness for C10: the empty input errors, and ids `[2, 7]` with two states
yield 8 buckets. -/
theorem c10_witness :
    sort_by_id ([] : List ℕ) ([] : List ℤ) = none ∧
    ∃ bs, sort_by_id [2, 7] ([5, 6] : List ℤ) = some bs ∧ bs.length = 8 :=
  ⟨(c10_sort_by_id_empty_raises [] ([] : List ℤ)).1 rfl,
   (c10_sort_by_id_empty_raises [2, 7] ([5, 6] : List ℤ)).2 (by decide) (by decide) 7 (by decide)⟩

/-! ## Strength Aggregator (`cal_empirical_strength`) -/

/-- Source `np.zeros(state_shape)`: a zero matrix with the given row widths. -/
def zerosLike (shape : List ℕ) : StateMat :=
  shape.map (fun w => List.replicate w 0)

/-- Source `np.stack(states, axis=0)`: numpy refuses an empty list and
requires every array to have exactly the same shape; on success the stacked
3D array is just the list of matrices. -/
def npStack (sts : List StateMat) : Option (List StateMat) :=
  match sts with
  | [] => none
  | m :: rest =>
    if rest.all (fun m2 => matShape m2 == matShape m) then some (m :: rest)
    else none

/-- Elementwise sum of two matrices (numpy broadcasting never fires here:
all uses are on equal-shaped matrices). -/
def matAdd (a b : StateMat) : StateMat :=
  List.zipWith (List.zipWith (· + ·)) a b

/-- Elementwise scalar multiple. -/
def matSMul (c : ℚ) (m : StateMat) : StateMat :=
  m.map (List.map (fun x => c * x))

/-- Sum of a list of equal-shaped matrices. -/
def sumMats : List StateMat → StateMat
  | [] => []
  | m :: ms => ms.foldl matAdd m

/-- Source `lambda state_mat: np.mean(state_mat, axis=0)` applied to the
stacked `[n, n_layer, n_units]` array: the elementwise average over the
first axis, i.e. the sum of the matrices divided by their count. -/
def npMeanAxis0 (ms : List StateMat) : StateMat :=
  matSMul (1 / (ms.length : ℚ)) (sumMats ms)

/-- Source inner function `strenth_map` (name as in the source): `None`
buckets become `np.zeros(state_shape)`; observed buckets are stacked (which
raises on an empty or shape-mismatched bucket) and reduced by
`strength_func`. -/
def strenth_map (f : List StateMat → StateMat) (shape : List ℕ) :
    Option (List StateMat) → Option StateMat
  | none => some (zerosLike shape)
  | some sts => (npStack sts).map f

/-- Source `cal_empirical_strength`: reads `id_states[0][0].shape`, which
raises when the bucket list is empty (`IndexError`), when the first bucket is
`None` (`TypeError`), or when the first bucket is an empty list
(`IndexError`); then maps `strenth_map` over all buckets. -/
def cal_empirical_strength (f : List StateMat → StateMat)
    (id_states : List (Option (List StateMat))) : Option (List StateMat) :=
  match id_states with
  | [] => none
  | none :: _ => none
  | some [] :: _ => none
  | some (s0 :: _) :: _ => optionMapM (strenth_map f (matShape s0)) id_states

theorem matShape_zerosLike (shape : List ℕ) : matShape (zerosLike shape) = shape := by
  induction shape with
  | nil => rfl
  | cons w t ih =>
    simp only [matShape, zerosLike, List.map_cons, List.length_replicate] at ih ⊢
    rw [ih]

theorem matShape_matAdd {a b : StateMat} (h : matShape a = matShape b) :
    matShape (matAdd a b) = matShape a := by
  induction a generalizing b with
  | nil => simp [matAdd]
  | cons ra ta ih =>
    cases b with
    | nil => simp [matShape] at h
    | cons rb tb =>
      simp only [matShape, List.map_cons, List.cons.injEq] at h
      simp only [matAdd, List.zipWith_cons_cons, matShape, List.map_cons,
        List.cons.injEq]
      constructor
      · rw [List.length_zipWith, h.1, min_self]
      · exact ih h.2

theorem matShape_matSMul (c : ℚ) (m : StateMat) :
    matShape (matSMul c m) = matShape m := by
  simp [matShape, matSMul, List.map_map]

theorem matShape_sumMats {ms : List StateMat} {s : List ℕ}
    (hne : ms ≠ []) (h : ∀ m ∈ ms, matShape m = s) :
    matShape (sumMats ms) = s := by
  cases ms with
  | nil => exact absurd rfl hne
  | cons m rest =>
    have hm : matShape m = s := h m (List.mem_cons_self m rest)
    have hr : ∀ x ∈ rest, matShape x = s :=
      fun x hx => h x (List.mem_cons_of_mem m hx)
    clear h hne
    simp only [sumMats]
    induction rest generalizing m with
    | nil => simpa using hm
    | cons r t ih =>
      have hrs : matShape r = s := hr r (List.mem_cons_self r t)
      have hts : ∀ x ∈ t, matShape x = s :=
        fun x hx => hr x (List.mem_cons_of_mem r hx)
      simp only [List.foldl_cons]
      exact ih (matAdd m r)
        (by rw [matShape_matAdd (by rw [hm, hrs])]; exact hm) hts

theorem matShape_npMeanAxis0 {ms : List StateMat} {s : List ℕ}
    (hne : ms ≠ []) (h : ∀ m ∈ ms, matShape m = s) :
    matShape (npMeanAxis0 ms) = s := by
  rw [npMeanAxis0, matShape_matSMul]
  exact matShape_sumMats hne h

theorem npStack_of_uniform {sts : List StateMat} {s : List ℕ}
    (hne : sts ≠ []) (h : ∀ m ∈ sts, matShape m = s) :
    npStack sts = some sts := by
  cases sts with
  | nil => exact absurd rfl hne
  | cons m rest =>
    simp only [npStack]
    rw [if_pos]
    rw [List.all_eq_true]
    intro m2 hm2
    rw [beq_iff_eq, h m2 (List.mem_cons_of_mem m hm2),
      h m (List.mem_cons_self m rest)]

/-- C3 (amended).  Provided the first bucket is populated and all observed
records share one shape, `cal_empirical_strength` with the mean reduction
succeeds with one output per input bucket (no gap), maps every zero-state
(`None`) bucket to the zero matrix of the common record shape, and gives
every output that same shape. -/
theorem c3_zero_buckets_give_zeros (id_states : List (Option (List StateMat)))
    (s0 : StateMat) (rest0 : List StateMat)
    (h0 : id_states.head? = some (some (s0 :: rest0)))
    (hsh : ∀ b ∈ id_states, ∀ sts, b = some sts →
      sts ≠ [] ∧ ∀ m ∈ sts, matShape m = matShape s0) :
    ∃ out, cal_empirical_strength npMeanAxis0 id_states = some out ∧
      out.length = id_states.length ∧
      (∀ i, id_states.get? i = some none →
        out.get? i = some (zerosLike (matShape s0))) ∧
      (∀ a ∈ out, matShape a = matShape s0) := by
  have hg : ∀ b ∈ id_states, strenth_map npMeanAxis0 (matShape s0) b =
      some (match b with
            | none => zerosLike (matShape s0)
            | some sts => npMeanAxis0 sts) := by
    intro b hb
    cases b with
    | none => rfl
    | some sts =>
      rcases hsh (some sts) hb sts rfl with ⟨hne, hsts⟩
      simp only [strenth_map]
      rw [npStack_of_uniform hne hsts]
      rfl
  cases hid : id_states with
  | nil => rw [hid] at h0; simp at h0
  | cons b0 tl =>
    subst hid
    simp only [List.head?_cons, Option.some.injEq] at h0
    subst h0
    have hmap := optionMapM_eq_map hg
    have hcal : cal_empirical_strength npMeanAxis0 (some (s0 :: rest0) :: tl) =
        some ((some (s0 :: rest0) :: tl).map
          (fun b => match b with
                    | none => zerosLike (matShape s0)
                    | some sts => npMeanAxis0 sts)) := by
      simp only [cal_empirical_strength]
      exact hmap
    refine ⟨_, hcal, ?_, ?_, ?_⟩
    · simp
    · intro i hi
      rw [List.get?_eq_getElem?] at hi ⊢
      rw [List.getElem?_map]
      rw [hi]
      rfl
    · intro a ha
      rw [List.mem_map] at ha
      rcases ha with ⟨b, hb, hab⟩
      cases b with
      | none => rw [← hab]; exact matShape_zerosLike _
      | some sts =>
        rcases hsh (some sts) hb sts rfl with ⟨hne, hsts⟩
        rw [← hab]
        exact matShape_npMeanAxis0 hne hsts

/-- Witness for C3 (amended) at buckets
`[some [[[1],[3]]], none, some [[[5],[7]], [[7],[9]]]]`: bucket 1 has no
states and is mapped to the zero matrix shaped like the records. -/
theorem c3_witness :
    ∃ out, cal_empirical_strength npMeanAxis0
        [some [[[1], [3]]], none, some [[[5], [7]], [[7], [9]]]] = some out ∧
      out.length = 3 ∧
      (∀ i, ([some [[[1], [3]]], none,
          some [[[5], [7]], [[7], [9]]]] : List (Option (List StateMat))).get? i = some none →
        out.get? i = some (zerosLike (matShape [[1], [3]]))) ∧
      (∀ a ∈ out, matShape a = matShape [[1], [3]]) := by
  have h := c3_zero_buckets_give_zeros
    [some [[[1], [3]]], none, some [[[5], [7]], [[7], [9]]]]
    [[1], [3]] [] rfl (by decide)
  simpa using h

/-- Counterexample to C3 as stated: a grouped list whose first bucket has
zero observed states makes `cal_empirical_strength` raise (`None` has no
element `[0]`), instead of returning a zero-filled array for that id. -/
theorem c3_counterexample :
    ([none, some [[[1]]]] : List (Option (List StateMat))).get? 0 = some none ∧
    cal_empirical_strength npMeanAxis0 [none, some [[[1]]]] = none :=
  ⟨rfl, rfl⟩

/-! ## `get_empirical_strength` (cache tiers, range check, layer slicing) -/

/-- An untyped ndarray value, used for the results of numpy indexing whose
rank depends on how the index is written (`arr[i]` vs `arr[[i]]`). -/
inductive Arr where
  | num (q : ℚ)
  | list (l : List Arr)

/-- Number of dimensions of an ndarray along its leading spine. -/
def Arr.ndim : Arr → ℕ
  | .num _ => 0
  | .list [] => 1
  | .list (a :: _) => a.ndim + 1

/-- A 1D ndarray from a row of rationals. -/
def rowArr (r : List ℚ) : Arr :=
  .list (r.map .num)

/-- Python sequence indexing `l[i]`, with negative wraparound and
`IndexError` out of range. -/
def pyGet (l : List α) (i : ℤ) : Option α :=
  if 0 ≤ i then l.get? i.toNat
  else if (-i).toNat ≤ l.length then l.get? (l.length - (-i).toNat)
  else none

/-- numpy fancy indexing `arr[idx_list]` on a 2D array: selects the listed
rows (with wraparound), producing a 2D array with `len(idx_list)` rows. -/
def npFancy (m : StateMat) (idx : List ℤ) : Option Arr :=
  (optionMapM (fun l => (pyGet m l).map rowArr) idx).map Arr.list

/-- Total counterpart of `npFancy` under validity of all indices. -/
def fancyVal (m : StateMat) (idx : List ℤ) : Arr :=
  .list (idx.map (fun l => rowArr ((pyGet m l).getD [])))

/-- Exceptions distinguished by the claims: the `ValueError` of the
`top_k > 1000` range check versus every other raised error. -/
inductive Err where
  | range
  | other
deriving DecidableEq

/-- Observable side effects of `get_empirical_strength`: probing/reading the
cache file, querying the database (via `load_words_and_state`), and writing
the cache file. -/
inductive Effect where
  | cacheRead
  | dbQuery
  | cacheWrite
deriving DecidableEq

/-- The environment of `get_empirical_strength`: the cache directory (per
tier file contents) and the word/state data that
`load_words_and_state(data_name, model_name, state_name, diff=True)` would
deliver from the database for the fixed name parameters. -/
structure World where
  cache : ℕ → Option (List StateMat)
  words : List ℕ
  states : List StateMat

/-- The `layer` parameter of `get_empirical_strength`: a Python int or list. -/
inductive LayerSel where
  | int (i : ℤ)
  | list (l : List ℤ)

/-- Source `if not isinstance(layer, list): layer = [layer]`. -/
def normalizeLayer : LayerSel → List ℤ
  | .int i => [i]
  | .list l => l

/-- Source tier rounding: `top = 100 if top_k <= 100 else 500 if top_k <= 500
else 1000`. -/
def tierOf (top_k : ℕ) : ℕ :=
  if top_k ≤ 100 then 100 else if top_k ≤ 500 then 500 else 1000

/-- The tier the spec describes: the smallest of {100, 500, 1000} that
covers `top_k`. -/
def specSmallestTier (top_k : ℕ) : ℕ :=
  (([100, 500, 1000] : List ℕ).filter (fun t => top_k ≤ t)).headD 0

/-- Source result slicing `[id_strengths[i][layer] for i in range(top_k)]`:
`id_strengths[i]` raises past the end, and `[layer]` is list (fancy)
indexing on the word strength matrix. -/
def extract (strengths : List StateMat) (layers : List ℤ) (top_k : ℕ) :
    Except Err (List Arr) :=
  match optionMapM
      (fun i => (strengths.get? i).bind (fun m => npFancy m layers))
      (List.range top_k) with
  | some l => .ok l
  | none => .error .other

/-- Source `get_empirical_strength` over a `World`, also recording its side
effects in order.  The pipeline of the cache-miss branch is
`load_words_and_state` (modelled as the database contents in the world),
`sort_by_id`, the `[:top]` slice, and `cal_empirical_strength` with the mean
reduction. -/
def get_empirical_strength (w : World) (layer : LayerSel) (top_k : ℕ) :
    Except Err (List Arr) × List Effect :=
  let layers := normalizeLayer layer
  if 1000 < top_k then (.error .range, [])
  else
    let top := tierOf top_k
    match w.cache top with
    | some id_strengths => (extract id_strengths layers top_k, [.cacheRead])
    | none =>
      match sort_by_id w.words w.states with
      | none => (.error .other, [.cacheRead, .dbQuery])
      | some id_to_states =>
        match cal_empirical_strength npMeanAxis0 (id_to_states.take top) with
        | none => (.error .other, [.cacheRead, .dbQuery])
        | some id_strengths =>
          (extract id_strengths layers top_k, [.cacheRead, .dbQuery, .cacheWrite])

theorem tierOf_eq_specSmallestTier {top_k : ℕ} (h : top_k ≤ 1000) :
    tierOf top_k = specSmallestTier top_k := by
  by_cases h1 : top_k ≤ 100
  · have d1 : decide (top_k ≤ 100) = true := by simpa using h1
    simp [tierOf, specSmallestTier, List.filter, d1, h1]
  · have d1 : decide (top_k ≤ 100) = false := by simpa using h1
    by_cases h2 : top_k ≤ 500
    · have d2 : decide (top_k ≤ 500) = true := by simpa using h2
      simp [tierOf, specSmallestTier, List.filter, d1, d2, h1, h2]
    · have d2 : decide (top_k ≤ 500) = false := by simpa using h2
      have d3 : decide (top_k ≤ 1000) = true := by simpa using h
      simp [tierOf, specSmallestTier, List.filter, d1, d2, d3, h1, h2]

theorem npFancy_of_valid {m : StateMat} {idx : List ℤ}
    (h : ∀ l ∈ idx, (pyGet m l).isSome) :
    npFancy m idx = some (fancyVal m idx) := by
  have hmap := optionMapM_eq_map
    (f := fun l => (pyGet m l).map rowArr)
    (g := fun l => rowArr ((pyGet m l).getD []))
    (l := idx) ?_
  · simp only [npFancy, hmap, Option.map_some]
    rfl
  · intro l hl
    have := h l hl
    cases hp : pyGet m l with
    | none => rw [hp] at this; simp at this
    | some v => simp [hp]

theorem range_map_getD {l : List α} {n : ℕ} (h : n ≤ l.length)
    (g : α → β) (d : α) :
    (List.range n).map (fun i => g (l.getD i d)) = (l.take n).map g := by
  induction n with
  | zero => simp
  | succ k ih =>
    have hk : k ≤ l.length := Nat.le_of_succ_le h
    rw [List.range_succ, List.map_append, ih hk]
    have hlt : k < l.length := h
    rw [List.take_succ]
    rw [List.map_append]
    congr 1
    rw [List.getElem?_eq_getElem hlt]
    simp only [Option.toList_some, List.map_cons, List.map_nil]
    congr 1
    rw [List.getD_eq_getElem?_getD, List.getElem?_eq_getElem hlt]
    rfl

theorem extract_ok {strengths : List StateMat} {layers : List ℤ} {top_k : ℕ}
    (hlen : top_k ≤ strengths.length)
    (hvalid : ∀ m ∈ strengths, ∀ l ∈ layers, (pyGet m l).isSome) :
    extract strengths layers top_k =
      .ok ((strengths.take top_k).map (fun m => fancyVal m layers)) := by
  have hstep : ∀ i ∈ List.range top_k,
      ((strengths.get? i).bind (fun m => npFancy m layers)) =
        some (fancyVal (strengths.getD i []) layers) := by
    intro i hi
    have hilt : i < strengths.length := lt_of_lt_of_le (List.mem_range.mp hi) hlen
    have hget : strengths.get? i = some (strengths.getD i []) := by
      rw [List.get?_eq_getElem?, List.getD_eq_getElem?_getD,
        List.getElem?_eq_getElem hilt]
      rfl
    rw [hget]
    have hmem : strengths.getD i [] ∈ strengths := by
      rw [List.getD_eq_getElem?_getD, List.getElem?_eq_getElem hilt]
      exact List.getElem_mem hilt
    exact npFancy_of_valid (fun l hl => hvalid _ hmem l hl)
  have hmap := optionMapM_eq_map hstep
  rw [extract, hmap, range_map_getD hlen (fun m => fancyVal m layers) []]

theorem extract_ne_range (strengths : List StateMat) (layers : List ℤ)
    (top_k : ℕ) : extract strengths layers top_k ≠ .error .range := by
  rw [extract]
  cases h : optionMapM
      (fun i => (strengths.get? i).bind (fun m => npFancy m layers))
      (List.range top_k) with
  | none => simp
  | some l => simp

theorem get_empirical_strength_hit (w : World) (layer : LayerSel) (top_k : ℕ)
    (strengths : List StateMat) (hk : ¬ 1000 < top_k)
    (hc : w.cache (tierOf top_k) = some strengths) :
    get_empirical_strength w layer top_k =
      (extract strengths (normalizeLayer layer) top_k, [.cacheRead]) := by
  simp only [get_empirical_strength]
  rw [if_neg hk, hc]

/-- C4 (amended).  For `top_k ≤ 1000` (with the resolved cache tier
populated with at least `top_k` word strengths and the layer selection in
range), `get_empirical_strength` resolves the tier exactly as the smallest
of {100, 500, 1000} covering `top_k` and returns precisely the first `top_k`
entries of the tier list (each sliced by the layer selector), so the result
length is `top_k`; in particular the tiers resolved for
`top_k` in {1, 100, 101, 500, 1000} are {100, 100, 500, 500, 1000}. -/
theorem c4_tier_rounding_and_slice (w : World) (layer : LayerSel) (top_k : ℕ)
    (strengths : List StateMat)
    (hk : top_k ≤ 1000)
    (hc : w.cache (tierOf top_k) = some strengths)
    (hlen : top_k ≤ strengths.length)
    (hvalid : ∀ m ∈ strengths, ∀ l ∈ normalizeLayer layer, (pyGet m l).isSome) :
    tierOf top_k = specSmallestTier top_k ∧
    (tierOf 1 = 100 ∧ tierOf 100 = 100 ∧ tierOf 101 = 500 ∧
      tierOf 500 = 500 ∧ tierOf 1000 = 1000) ∧
    (get_empirical_strength w layer top_k).1 =
      .ok ((strengths.take top_k).map (fun m => fancyVal m (normalizeLayer layer))) ∧
    ((strengths.take top_k).map
      (fun m => fancyVal m (normalizeLayer layer))).length = top_k := by
  refine ⟨tierOf_eq_specSmallestTier hk, by decide, ?_, ?_⟩
  · rw [get_empirical_strength_hit w layer top_k strengths (by omega) hc]
    exact extract_ok hlen hvalid
  · rw [List.length_map, List.length_take]
    omega

/-- Cache contents used by the C4 witness: tier file 100 holding two word
strength matrices of two layers each. -/
def worldC4 : World :=
  ⟨fun t => if t = 100 then some [[[1], [2]], [[3], [4]]] else none, [], []⟩

/-- Witness for C4 (amended) at `top_k = 2` and the single layer selector
`-1`. -/
theorem c4_witness :
    (2 : ℕ) ≤ 1000 ∧
    tierOf 2 = specSmallestTier 2 ∧
    (tierOf 1 = 100 ∧ tierOf 100 = 100 ∧ tierOf 101 = 500 ∧
      tierOf 500 = 500 ∧ tierOf 1000 = 1000) ∧
    (get_empirical_strength worldC4 (.int (-1)) 2).1 =
      .ok (([[[1], [2]], [[3], [4]]] : List StateMat).map
        (fun m => fancyVal m (normalizeLayer (.int (-1))))) ∧
    ∃ n, n = 2 := by
  have h := c4_tier_rounding_and_slice worldC4 (.int (-1)) 2 [[[1], [2]], [[3], [4]]]
    (by decide) rfl (by decide) (by decide)
  exact ⟨by decide, h.1, h.2.1, h.2.2.1, ⟨2, rfl⟩⟩

/-- Counterexample to C4 as stated: the claim's table expects tier 500 at
`top_k = 100` and tier 1000 at `top_k = 500`, but the code's tier rounding
(and the smallest-covering-tier rule the claim itself describes) resolve
those to 100 and 500. -/
theorem c4_counterexample :
    tierOf 100 = 100 ∧ specSmallestTier 100 = 100 ∧ (100 : ℕ) ≠ 500 ∧
    tierOf 500 = 500 ∧ specSmallestTier 500 = 500 ∧ (500 : ℕ) ≠ 1000 :=
  ⟨rfl, rfl, by decide, rfl, rfl, by decide⟩

theorem get_never_range_when_le (w : World) (layer : LayerSel) (top_k : ℕ)
    (hk : ¬ 1000 < top_k) :
    (get_empirical_strength w layer top_k).1 ≠ Except.error Err.range := by
  simp only [get_empirical_strength]
  rw [if_neg hk]
  intro hcon
  split at hcon
  · exact extract_ne_range _ _ _ hcon
  · split at hcon
    · simp at hcon
    · split at hcon
      · simp at hcon
      · exact extract_ne_range _ _ _ hcon

/-- C5.  A call with `top_k > 1000` raises `ValueError` immediately with no
cache access and no database query (the recorded effect list is empty),
while `top_k = 1000` is never rejected by this range check, whatever the
world contains. -/
theorem c5_top_k_range_check :
    (∀ (w : World) (layer : LayerSel) (top_k : ℕ), 1000 < top_k →
      get_empirical_strength w layer top_k = (.error .range, [])) ∧
    (∀ (w : World) (layer : LayerSel),
      (get_empirical_strength w layer 1000).1 ≠ .error .range) := by
  constructor
  · intro w layer top_k h
    simp only [get_empirical_strength]
    rw [if_pos h]
  · intro w layer
    exact get_never_range_when_le w layer 1000 (by omega)

/-- World used by the C5 witness: empty cache and database. -/
def worldC5 : World := ⟨fun _ => none, [], []⟩

/-- Witness for C5: `top_k = 1001` is rejected with an empty effect trace and
`top_k = 1000` is not range-rejected. -/
theorem c5_witness :
    (1000 < 1001) ∧
    get_empirical_strength worldC5 (.int (-1)) 1001 = (.error .range, []) ∧
    (get_empirical_strength worldC5 (.int (-1)) 1000).1 ≠ .error .range :=
  ⟨by decide, c5_top_k_range_check.1 worldC5 (.int (-1)) 1001 (by decide),
   c5_top_k_range_check.2 worldC5 (.int (-1))⟩

theorem arr_pair_ndim (row : List ℚ) :
    (Arr.list [Arr.list (row.map Arr.num)]).ndim = 2 := by
  cases row <;> rfl

/-- C9 (amended).  With a single integer layer selector, every element of
the returned list is a 2D array of shape `(1, n_units)` — a one-row matrix
holding the selected layer, not a 1D per-unit vector. -/
theorem c9_single_int_layer_yields_2d (w : World) (i : ℤ) (top_k : ℕ)
    (strengths : List StateMat)
    (hk : top_k ≤ 1000)
    (hc : w.cache (tierOf top_k) = some strengths)
    (hlen : top_k ≤ strengths.length)
    (hvalid : ∀ m ∈ strengths, (pyGet m i).isSome) :
    ∃ out, (get_empirical_strength w (.int i) top_k).1 = .ok out ∧
      ∀ a ∈ out,
        (∃ row : List ℚ, a = Arr.list [Arr.list (row.map Arr.num)]) ∧
        a.ndim = 2 := by
  have hmain : (get_empirical_strength w (.int i) top_k).1 =
      .ok ((strengths.take top_k).map (fun m => fancyVal m [i])) := by
    rw [get_empirical_strength_hit w (.int i) top_k strengths (by omega) hc]
    exact extract_ok hlen (fun m hm l hl => by
      have : l = i := by simpa [normalizeLayer] using hl
      rw [this]
      exact hvalid m hm)
  refine ⟨_, hmain, ?_⟩
  intro a ha
  rw [List.mem_map] at ha
  rcases ha with ⟨m, _, ham⟩
  have hform : a = Arr.list [Arr.list (((pyGet m i).getD []).map Arr.num)] := by
    rw [← ham]
    simp [fancyVal, rowArr]
  exact ⟨⟨(pyGet m i).getD [], hform⟩, by rw [hform]; exact arr_pair_ndim _⟩

/-- World used by the C9 theorems: one cached word strength matrix with two
layers of one unit each. -/
def worldC9 : World :=
  ⟨fun t => if t = 100 then some [[[3], [5]]] else none, [], []⟩

/-- Witness for C9 (amended) at layer `-1`, `top_k = 1`. -/
theorem c9_witness :
    (1 : ℕ) ≤ 1000 ∧
    ∃ out, (get_empirical_strength worldC9 (.int (-1)) 1).1 = .ok out ∧
      ∀ a ∈ out,
        (∃ row : List ℚ, a = Arr.list [Arr.list (row.map Arr.num)]) ∧
        a.ndim = 2 :=
  ⟨by decide,
   c9_single_int_layer_yields_2d worldC9 (-1) 1 [[[3], [5]]]
     (by decide) rfl (by decide) (by decide)⟩

/-- Counterexample to C9 as stated: with the single integer layer selector
`-1` the element returned for the only word is `[[5]]`, a 2D array with one
row, not a 1D per-unit vector (its ndim is 2, not 1). -/
theorem c9_counterexample :
    (get_empirical_strength worldC9 (.int (-1)) 1).1 =
      .ok [Arr.list [Arr.list [Arr.num 5]]] ∧
    (Arr.list [Arr.list [Arr.num 5]]).ndim = 2 ∧
    (Arr.list [Arr.list [Arr.num 5]]).ndim ≠ 1 :=
  ⟨rfl, rfl, by decide⟩

/-! ## Serializer (`solution2json`, coordinate variant) -/

/-- One serialized point of the coordinate variant:
`{'coords': s, 'layer': ..., 'state_id': ..., 'label': ...}`. -/
structure JsonPoint where
  coords : List ℚ
  layer : ℕ
  state_id : ℕ
  label : ℤ
deriving DecidableEq

/-- Source loop `for i, num in enumerate(states_num): layers += [i+1] * num`,
with `start` the running enumeration index. -/
def layersOf (start : ℕ) : List ℕ → List ℕ
  | [] => []
  | n :: t => List.replicate n (start + 1) ++ layersOf (start + 1) t

/-- Source loop `state_ids += list(range(num))` over `states_num`. -/
def stateIdsOf : List ℕ → List ℕ
  | [] => []
  | n :: t => List.range n ++ stateIdsOf t

/-- Source point comprehension `[{...} for i, s in enumerate(solution)]`:
`layers[i]`, `state_ids[i]` and `labels[i]` raise `IndexError` when any of
the parallel arrays is shorter than the solution (the `none` case). -/
def buildPoints : List (List ℚ) → List ℕ → List ℕ → List ℤ →
    Option (List JsonPoint)
  | [], _, _, _ => some []
  | s :: sol, l :: ls, d :: ds, b :: bs =>
    (buildPoints sol ls ds bs).map (fun pts => ⟨s, l, d, b⟩ :: pts)
  | _ :: _, _, _, _ => none

/-- Source `solution2json` (after `tolist` conversions): labels default to
`[0] * len(solution)`. -/
def solution2json (solution : List (List ℚ)) (states_num : List ℕ)
    (labels : Option (List ℤ)) : Option (List JsonPoint) :=
  buildPoints solution (layersOf 0 states_num) (stateIdsOf states_num)
    (labels.getD (List.replicate solution.length 0))

/-- The layer/state-id assignment the spec describes: expand `states_num`
block by block, layer `j+1` for block `j`, state ids counting from 0 inside
each block. -/
def expandPairs (start : ℕ) : List ℕ → List (ℕ × ℕ)
  | [] => []
  | n :: t => (List.range n).map (fun s => (start + 1, s)) ++ expandPairs (start + 1) t

theorem layersOf_length (start : ℕ) (sn : List ℕ) :
    (layersOf start sn).length = sn.sum := by
  induction sn generalizing start with
  | nil => rfl
  | cons n t ih => simp [layersOf, ih]

theorem stateIdsOf_length (sn : List ℕ) : (stateIdsOf sn).length = sn.sum := by
  induction sn with
  | nil => rfl
  | cons n t ih => simp [stateIdsOf, ih]

theorem replicate_zip_range (n x : ℕ) :
    (List.replicate n x).zip (List.range n) =
      (List.range n).map (fun s => (x, s)) := by
  induction n with
  | zero => rfl
  | succ k ih =>
    rw [List.replicate_succ', List.range_succ,
      List.zip_append (by simp), ih, List.map_append]
    rfl

theorem layersOf_zip_stateIdsOf (start : ℕ) (sn : List ℕ) :
    (layersOf start sn).zip (stateIdsOf sn) = expandPairs start sn := by
  induction sn generalizing start with
  | nil => rfl
  | cons n t ih =>
    simp only [layersOf, stateIdsOf, expandPairs]
    rw [List.zip_append (by simp), replicate_zip_range, ih]

theorem buildPoints_ok (sol : List (List ℚ)) :
    ∀ ls ds bs, sol.length ≤ ls.length → sol.length ≤ ds.length →
    sol.length ≤ bs.length →
    ∃ pts, buildPoints sol ls ds bs = some pts ∧
      pts.map (fun p => (p.layer, p.state_id)) = (ls.zip ds).take sol.length ∧
      pts.map JsonPoint.coords = sol := by
  induction sol with
  | nil => intro ls ds bs _ _ _; exact ⟨[], rfl, by simp, rfl⟩
  | cons s sol ih =>
    intro ls ds bs hls hds hbs
    cases ls with
    | nil => simp at hls
    | cons l ls2 =>
      cases ds with
      | nil => simp at hds
      | cons d ds2 =>
        cases bs with
        | nil => simp at hbs
        | cons b bs2 =>
          rcases ih ls2 ds2 bs2 (by simpa using hls) (by simpa using hds)
            (by simpa using hbs) with ⟨pts, heq, hpairs, hcoords⟩
          refine ⟨⟨s, l, d, b⟩ :: pts, ?_, ?_, ?_⟩
          · simp [buildPoints, heq]
          · simp only [List.map_cons, hpairs, List.zip_cons_cons,
              List.length_cons, List.take_succ_cons]
          · simp only [List.map_cons, hcoords]

/-- C8.  When `states_num` sums to the solution length, the coordinate
serializer succeeds and assigns the points exactly the block expansion of
`states_num`: layer `j+1` for the block of layer `j`, state ids counting
from 0 within each block, coordinates preserved in order. -/
theorem c8_layer_state_id_expansion (solution : List (List ℚ))
    (states_num : List ℕ) (hsum : states_num.sum = solution.length) :
    ∃ pts, solution2json solution states_num none = some pts ∧
      pts.map (fun p => (p.layer, p.state_id)) = expandPairs 0 states_num ∧
      pts.map JsonPoint.coords = solution := by
  have hls : solution.length ≤ (layersOf 0 states_num).length := by
    rw [layersOf_length, hsum]
  have hds : solution.length ≤ (stateIdsOf states_num).length := by
    rw [stateIdsOf_length, hsum]
  have hbs : solution.length ≤ (List.replicate solution.length (0 : ℤ)).length := by
    simp
  rcases buildPoints_ok solution (layersOf 0 states_num) (stateIdsOf states_num)
    (List.replicate solution.length 0) hls hds hbs with ⟨pts, heq, hpairs, hcoords⟩
  refine ⟨pts, heq, ?_, hcoords⟩
  rw [hpairs, ← layersOf_zip_stateIdsOf 0 states_num]
  apply List.take_of_length_le
  rw [List.length_zip, layersOf_length, stateIdsOf_length, hsum, min_self]

/-- Witness for C8 at `states_num = [3, 2]` and a five-point solution: the
layer/state-id sequence is exactly `[(1,0), (1,1), (1,2), (2,0), (2,1)]`. -/
theorem c8_witness :
    ([3, 2] : List ℕ).sum = ([[0], [1], [2], [3], [4]] : List (List ℚ)).length ∧
    ∃ pts, solution2json [[0], [1], [2], [3], [4]] [3, 2] none = some pts ∧
      pts.map (fun p => (p.layer, p.state_id)) =
        [(1, 0), (1, 1), (1, 2), (2, 0), (2, 1)] ∧
      pts.map JsonPoint.coords = [[0], [1], [2], [3], [4]] := by
  refine ⟨by decide, ?_⟩
  rcases c8_layer_state_id_expansion [[0], [1], [2], [3], [4]] [3, 2] (by decide)
    with ⟨pts, heq, hpairs, hcoords⟩
  exact ⟨pts, heq, by rw [hpairs]; decide, hcoords⟩

/-! ## Statistics Engine (`compute_stats`) -/

/-- Floor of a rational: numerator divided by (positive) denominator with
integer floor division. -/
def ratFloor (q : ℚ) : ℤ := q.num / (q.den : ℤ)

/-- Source `np.mean(states_mat, axis=0)` for one column. -/
def listMean (l : List ℚ) : ℚ := l.sum / l.length

/-- Squared-deviation average for one column (`np.std` before its final
square root, which is the black-box `sqrtFn` parameter). -/
def listVar (l : List ℚ) : ℚ :=
  ((l.map (fun x => (x - listMean l) ^ 2)).sum) / l.length

/-- Value of `np.percentile(sorted_values, p)` with the default linear
interpolation: index `h = p (n-1) / 100`, floor part `i`, fractional part
`g`, result `s[i] + g (s[min(i+1, n-1)] - s[i])`. -/
def pctVal (s : List ℚ) (p : ℚ) : ℚ :=
  let h : ℚ := p * ((s.length : ℚ) - 1) / 100
  let i : ℕ := (ratFloor h).toNat
  let g : ℚ := h - (i : ℚ)
  s.getD i 0 + g * (s.getD (min (i + 1) (s.length - 1)) 0 - s.getD i 0)

/-- Source `np.percentile(states_mat, p, axis=0)` for one column: raises on
an empty input or a percentile outside `[0, 100]`. -/
def percentile (xs : List ℚ) (p : ℚ) : Option ℚ :=
  match xs with
  | [] => none
  | _ :: _ =>
    if p < 0 ∨ 100 < p then none
    else some (pctVal (List.insertionSort (· ≤ ·) xs) p)

/-- Total percentile of a non-empty column (sorted ascending first). -/
def pctOf (c : List ℚ) (p : ℚ) : ℚ := pctVal (List.insertionSort (· ≤ ·) c) p

/-- Column `u` of a stacked matrix. -/
def colOf (mat : List (List ℚ)) (u : ℕ) : List ℚ :=
  mat.map (fun r => r.getD u 0)

/-- Source `np.vstack(state_list)`: refuses an empty list and rows of
differing lengths. -/
def vstack (rows : List (List ℚ)) : Option (List (List ℚ)) :=
  match rows with
  | [] => none
  | r :: rs => if rs.all (fun r2 => r2.length == r.length) then some (r :: rs)
               else none

/-- Source `np.argsort(mean)`: the permutation of indices sorting the values
ascending (stable). -/
def argsortQ (v : List ℚ) : List ℕ :=
  List.insertionSort (fun i j => v.getD i 0 ≤ v.getD j 0) (List.range v.length)

/-- numpy fancy indexing `values[idx]` used to apply the argsort
permutation. -/
def permuteBy (idx : List ℕ) (v : List ℚ) : List ℚ :=
  idx.map (fun i => v.getD i 0)

/-- Per-layer body of the `compute_stats` loop: per-unit mean, std (up to
the black-box square root), lower and upper percentile error bands, and the
optional sort permutation applied to all four. -/
def statsOfMat (sqrtFn : ℚ → ℚ) (mat : List (List ℚ)) (sortB : Bool)
    (percent : ℚ) :
    Option (List ℚ × List ℚ × List ℚ × List ℚ × Option (List ℕ)) :=
  let cols := (List.range (mat.headD []).length).map (colOf mat)
  let mean := cols.map listMean
  let std := cols.map (fun c => sqrtFn (listVar c))
  match optionMapM (fun c => percentile c ((100 - percent) / 2)) cols,
        optionMapM (fun c => percentile c (50 + percent / 2)) cols with
  | some pl, some pu =>
    let error_l := List.zipWith (fun m q => m - q) mean pl
    let error_u := List.zipWith (fun q m => q - m) pu mean
    if sortB then
      let idx := argsortQ mean
      some (permuteBy idx mean, permuteBy idx std, permuteBy idx error_l,
            permuteBy idx error_u, some idx)
    else
      some (mean, std, error_l, error_u, none)
  | _, _ => none

/-- Unzip the per-layer tuples into the five lists `compute_stats` returns. -/
def unzip5 (l : List (List ℚ × List ℚ × List ℚ × List ℚ × Option (List ℕ))) :
    List (List ℚ) × List (List ℚ) × List (List ℚ) × List (List ℚ) ×
    List (Option (List ℕ)) :=
  (l.map (fun x => x.1), l.map (fun x => x.2.1), l.map (fun x => x.2.2.1),
   l.map (fun x => x.2.2.2.1), l.map (fun x => x.2.2.2.2))

/-- Source `compute_stats`: `states[0].shape[0]` raises on an empty input;
for each layer the records are indexed (`state[layer]`), stacked
(`np.vstack`) and summarised by `statsOfMat`. -/
def compute_stats (sqrtFn : ℚ → ℚ) (states : List StateMat) (sortB : Bool)
    (percent : ℚ) :
    Option (List (List ℚ) × List (List ℚ) × List (List ℚ) × List (List ℚ) ×
      List (Option (List ℕ))) :=
  match states with
  | [] => none
  | s0 :: rest =>
    (optionMapM (fun layer =>
        (optionMapM (fun st => st.get? layer) (s0 :: rest)).bind (fun state_list =>
        (vstack state_list).bind (fun mat =>
        statsOfMat sqrtFn mat sortB percent)))
      (List.range s0.length)).map unzip5

theorem optionMapM_total_prop {f : α → Option β} {l : List α} {P : β → Prop}
    (h : ∀ a ∈ l, ∃ b, f a = some b ∧ P b) :
    ∃ out, optionMapM f l = some out ∧ ∀ b ∈ out, P b := by
  induction l with
  | nil => exact ⟨[], rfl, by simp⟩
  | cons a t ih =>
    rcases h a (List.mem_cons_self a t) with ⟨b, hfa, hPb⟩
    rcases ih (fun x hx => h x (List.mem_cons_of_mem a hx)) with ⟨out, hft, hP⟩
    refine ⟨b :: out, ?_, ?_⟩
    · simp [optionMapM, hfa, hft]
    · intro c hc
      rcases List.mem_cons.mp hc with hc | hc
      · exact hc ▸ hPb
      · exact hP c hc

theorem ratFloor_natCast (m : ℕ) : ratFloor ((m : ℕ) : ℚ) = m := by
  simp [ratFloor, Rat.num_natCast, Rat.den_natCast]

theorem pctVal_zero (s : List ℚ) : pctVal s 0 = s.getD 0 0 := by
  have h0 : (0 : ℚ) * ((s.length : ℚ) - 1) / 100 = 0 := by ring
  simp only [pctVal, h0]
  have hf : ratFloor 0 = 0 := by
    have : ((0 : ℕ) : ℚ) = (0 : ℚ) := by norm_num
    have := ratFloor_natCast 0
    simpa using this
  rw [hf]
  norm_num

theorem pctVal_hundred (s : List ℚ) (hne : s ≠ []) :
    pctVal s 100 = s.getD (s.length - 1) 0 := by
  have hn : 1 ≤ s.length := List.length_pos.mpr hne
  have h100 : (100 : ℚ) * ((s.length : ℚ) - 1) / 100 = (s.length : ℚ) - 1 := by
    ring
  have hcast : ((s.length : ℚ) - 1) = ((s.length - 1 : ℕ) : ℚ) := by
    push_cast [hn]
    ring
  simp only [pctVal]
  rw [h100, hcast, ratFloor_natCast, Int.toNat_natCast]
  ring_nf

theorem mem_of_getElem?_some {l : List α} {i : ℕ} {y : α} (h : l[i]? = some y) :
    y ∈ l := by
  rcases List.getElem?_eq_some_iff.mp h with ⟨hlt, hEq⟩
  exact hEq ▸ List.getElem_mem hlt

theorem getD_nonneg {l : List ℚ} (h : ∀ y ∈ l, 0 ≤ y) (i : ℕ) :
    0 ≤ l.getD i 0 := by
  rw [List.getD_eq_getElem?_getD]
  cases hg : l[i]? with
  | none => simp
  | some y =>
    simp only [Option.getD_some]
    exact h y (mem_of_getElem?_some hg)

theorem sorted_getD_zero_le {s : List ℚ} (hs : List.Sorted (· ≤ ·) s) :
    ∀ x ∈ s, s.getD 0 0 ≤ x := by
  cases s with
  | nil => intro x hx; simp at hx
  | cons a t =>
    intro x hx
    rcases List.mem_cons.mp hx with hx | hx
    · subst hx; simp
    · simpa using (List.sorted_cons.mp hs).1 x hx

theorem getD_last_mem {s : List ℚ} (hne : s ≠ []) :
    s.getD (s.length - 1) 0 ∈ s := by
  have hlt : s.length - 1 < s.length := by
    have := List.length_pos.mpr hne
    omega
  rw [List.getD_eq_getElem?_getD, List.getElem?_eq_getElem hlt]
  exact List.getElem_mem hlt

theorem le_sorted_getD_last {s : List ℚ} (hs : List.Sorted (· ≤ ·) s) :
    ∀ x ∈ s, x ≤ s.getD (s.length - 1) 0 := by
  induction s with
  | nil => intro x hx; simp at hx
  | cons a t ih =>
    intro x hx
    cases t with
    | nil =>
      have : x = a := by simpa using hx
      subst this
      simp
    | cons b t2 =>
      have hlen : (a :: b :: t2).length - 1 = (b :: t2).length - 1 + 1 := by
        simp
      rw [hlen, List.getD_cons_succ]
      rcases List.mem_cons.mp hx with hx | hx
      · subst hx
        have hmem : (b :: t2).getD ((b :: t2).length - 1) 0 ∈ b :: t2 :=
          getD_last_mem (by simp)
        exact (List.sorted_cons.mp hs).1 _ hmem
      · exact ih (List.sorted_cons.mp hs).2 x hx

theorem listMean_le {l : List ℚ} (hne : l ≠ []) {c : ℚ} (h : ∀ x ∈ l, x ≤ c) :
    listMean l ≤ c := by
  have h1 : l.sum ≤ l.length • c := List.sum_le_card_nsmul l c h
  rw [nsmul_eq_mul] at h1
  have hlen : 0 < (l.length : ℚ) := by
    have := List.length_pos.mpr hne
    exact_mod_cast this
  rw [listMean, div_le_iff₀ hlen]
  linarith

theorem le_listMean {l : List ℚ} (hne : l ≠ []) {c : ℚ} (h : ∀ x ∈ l, c ≤ x) :
    c ≤ listMean l := by
  have h1 : l.length • c ≤ l.sum := List.card_nsmul_le_sum l c h
  rw [nsmul_eq_mul] at h1
  have hlen : 0 < (l.length : ℚ) := by
    have := List.length_pos.mpr hne
    exact_mod_cast this
  rw [listMean, le_div_iff₀ hlen]
  linarith

theorem sort_ne_nil {c : List ℚ} (hne : c ≠ []) :
    List.insertionSort (· ≤ ·) c ≠ [] := by
  intro hcon
  have := (List.perm_insertionSort (· ≤ ·) c).length_eq
  rw [hcon] at this
  exact hne (List.length_eq_zero.mp this.symm)

theorem pctZero_le_mean {c : List ℚ} (hne : c ≠ []) : pctOf c 0 ≤ listMean c := by
  rw [pctOf, pctVal_zero]
  apply le_listMean hne
  intro x hx
  exact sorted_getD_zero_le (List.sorted_insertionSort _ c) x
    (((List.perm_insertionSort (· ≤ ·) c).mem_iff).mpr hx)

theorem mean_le_pctHundred {c : List ℚ} (hne : c ≠ []) :
    listMean c ≤ pctOf c 100 := by
  rw [pctOf, pctVal_hundred _ (sort_ne_nil hne)]
  apply listMean_le hne
  intro x hx
  exact le_sorted_getD_last (List.sorted_insertionSort _ c) x
    (((List.perm_insertionSort (· ≤ ·) c).mem_iff).mpr hx)

theorem percentile_of_nonempty {c : List ℚ} (hne : c ≠ []) {p : ℚ}
    (h0 : 0 ≤ p) (h1 : p ≤ 100) : percentile c p = some (pctOf c p) := by
  cases c with
  | nil => exact absurd rfl hne
  | cons a t =>
    simp only [percentile]
    rw [if_neg (by push_neg; exact ⟨h0, h1⟩)]
    rfl

theorem statsOfMat_bands_nonneg (sqrtFn : ℚ → ℚ) (mat : List (List ℚ))
    (sortB : Bool) (hne : mat ≠ []) :
    ∃ mn sd el eu ix,
      statsOfMat sqrtFn mat sortB 100 = some (mn, sd, el, eu, ix) ∧
      (∀ x ∈ el, 0 ≤ x) ∧ (∀ x ∈ eu, 0 ≤ x) := by
  have hcne : ∀ c ∈ (List.range (mat.headD []).length).map (colOf mat), c ≠ [] := by
    intro c hc
    rw [List.mem_map] at hc
    rcases hc with ⟨u, _, rfl⟩
    cases mat with
    | nil => exact absurd rfl hne
    | cons r t => simp [colOf]
  have h0 : ((100 : ℚ) - 100) / 2 = 0 := by norm_num
  have h100 : (50 : ℚ) + 100 / 2 = 100 := by norm_num
  have hpl : optionMapM
      (fun c => percentile c ((100 - (100 : ℚ)) / 2))
      ((List.range (mat.headD []).length).map (colOf mat)) =
      some (((List.range (mat.headD []).length).map (colOf mat)).map
        (fun c => pctOf c 0)) := by
    simp only [h0]
    exact optionMapM_eq_map
      (fun c hc => percentile_of_nonempty (hcne c hc) le_rfl (by norm_num))
  have hpu : optionMapM
      (fun c => percentile c (50 + (100 : ℚ) / 2))
      ((List.range (mat.headD []).length).map (colOf mat)) =
      some (((List.range (mat.headD []).length).map (colOf mat)).map
        (fun c => pctOf c 100)) := by
    simp only [h100]
    exact optionMapM_eq_map
      (fun c hc => percentile_of_nonempty (hcne c hc) (by norm_num) le_rfl)
  have hel : ∀ x ∈ List.zipWith (fun m q => m - q)
      (((List.range (mat.headD []).length).map (colOf mat)).map listMean)
      (((List.range (mat.headD []).length).map (colOf mat)).map
        (fun c => pctOf c 0)), 0 ≤ x := by
    intro x hx
    rw [List.zipWith_map_left, List.zipWith_map_right, List.zipWith_same] at hx
    rw [List.mem_map] at hx
    rcases hx with ⟨c, hcmem, rfl⟩
    exact sub_nonneg.mpr (pctZero_le_mean (hcne c hcmem))
  have heu : ∀ x ∈ List.zipWith (fun q m => q - m)
      (((List.range (mat.headD []).length).map (colOf mat)).map
        (fun c => pctOf c 100))
      (((List.range (mat.headD []).length).map (colOf mat)).map listMean),
      0 ≤ x := by
    intro x hx
    rw [List.zipWith_map_left, List.zipWith_map_right, List.zipWith_same] at hx
    rw [List.mem_map] at hx
    rcases hx with ⟨c, hcmem, rfl⟩
    exact sub_nonneg.mpr (mean_le_pctHundred (hcne c hcmem))
  cases sortB with
  | false =>
    refine ⟨(((List.range (mat.headD []).length).map (colOf mat)).map listMean), (((List.range (mat.headD []).length).map (colOf mat)).map (fun c => sqrtFn (listVar c))), (List.zipWith (fun m q => m - q) (((List.range (mat.headD []).length).map (colOf mat)).map listMean) (((List.range (mat.headD []).length).map (colOf mat)).map (fun c => pctOf c 0))), (List.zipWith (fun q m => q - m) (((List.range (mat.headD []).length).map (colOf mat)).map (fun c => pctOf c 100)) (((List.range (mat.headD []).length).map (colOf mat)).map listMean)), none, ?_, hel, heu⟩
    simp only [statsOfMat]
    rw [hpl, hpu]
    rfl
  | true =>
    refine ⟨permuteBy (argsortQ (((List.range (mat.headD []).length).map (colOf mat)).map listMean)) (((List.range (mat.headD []).length).map (colOf mat)).map listMean), permuteBy (argsortQ (((List.range (mat.headD []).length).map (colOf mat)).map listMean)) (((List.range (mat.headD []).length).map (colOf mat)).map (fun c => sqrtFn (listVar c))),
      permuteBy (argsortQ (((List.range (mat.headD []).length).map (colOf mat)).map listMean)) (List.zipWith (fun m q => m - q) (((List.range (mat.headD []).length).map (colOf mat)).map listMean) (((List.range (mat.headD []).length).map (colOf mat)).map (fun c => pctOf c 0))), permuteBy (argsortQ (((List.range (mat.headD []).length).map (colOf mat)).map listMean)) (List.zipWith (fun q m => q - m) (((List.range (mat.headD []).length).map (colOf mat)).map (fun c => pctOf c 100)) (((List.range (mat.headD []).length).map (colOf mat)).map listMean)), some (argsortQ (((List.range (mat.headD []).length).map (colOf mat)).map listMean)), ?_, ?_, ?_⟩
    · simp only [statsOfMat]
      rw [hpl, hpu]
      rfl
    · intro x hx
      rw [permuteBy, List.mem_map] at hx
      rcases hx with ⟨i, _, rfl⟩
      exact getD_nonneg hel i
    · intro x hx
      rw [permuteBy, List.mem_map] at hx
      rcases hx with ⟨i, _, rfl⟩
      exact getD_nonneg heu i

/-- C6 (amended).  For a non-empty input of equal-shaped records and
`percent = 100`, `compute_stats` succeeds and both error bands are
non-negative in every unit of every layer, with or without mean sorting.
(For smaller `percent` the bands can be negative; see the counterexample.) -/
theorem c6_bands_nonneg_at_full_percent (sqrtFn : ℚ → ℚ) (states : List StateMat)
    (s0 : StateMat) (rest : List StateMat) (hstates : states = s0 :: rest)
    (hsh : ∀ st ∈ states, matShape st = matShape s0) (sortB : Bool) :
    ∃ means stds els eus idxs,
      compute_stats sqrtFn states sortB 100 = some (means, stds, els, eus, idxs) ∧
      (∀ v ∈ els, ∀ x ∈ v, 0 ≤ x) ∧ (∀ v ∈ eus, ∀ x ∈ v, 0 ≤ x) := by
  subst hstates
  have hlayer : ∀ layer ∈ List.range s0.length,
      ∃ t, ((optionMapM (fun st => st.get? layer) (s0 :: rest)).bind
          (fun state_list => (vstack state_list).bind
          (fun mat => statsOfMat sqrtFn mat sortB 100))) = some t ∧
        ((∀ x ∈ t.2.2.1, 0 ≤ x) ∧ (∀ x ∈ t.2.2.2.1, 0 ≤ x)) := by
    intro layer hl
    have hlt : layer < s0.length := List.mem_range.mp hl
    have hrows : ∀ st ∈ s0 :: rest, st.length = s0.length := by
      intro st hst
      have := congrArg List.length (hsh st hst)
      simpa [matShape] using this
    have hget : ∀ st ∈ s0 :: rest, st.get? layer = some (st.getD layer []) := by
      intro st hst
      have hl2 : layer < st.length := by rw [hrows st hst]; exact hlt
      rw [List.get?_eq_getElem?, List.getD_eq_getElem?_getD,
        List.getElem?_eq_getElem hl2]
      rfl
    have hmapm := optionMapM_eq_map hget
    have hrowlen : ∀ st ∈ s0 :: rest,
        (st.getD layer []).length = (s0.getD layer []).length := by
      intro st hst
      have hsh2 := hsh st hst
      have hl2 : layer < st.length := by rw [hrows st hst]; exact hlt
      have h1 : (st.getD layer []).length = (matShape st).getD layer 0 := by
        rw [matShape, List.getD_eq_getElem?_getD, List.getD_eq_getElem?_getD,
          List.getElem?_eq_getElem hl2,
          List.getElem?_map, List.getElem?_eq_getElem hl2]
        rfl
      have h2 : (s0.getD layer []).length = (matShape s0).getD layer 0 := by
        rw [matShape, List.getD_eq_getElem?_getD, List.getD_eq_getElem?_getD,
          List.getElem?_eq_getElem hlt,
          List.getElem?_map, List.getElem?_eq_getElem hlt]
        rfl
      rw [h1, h2, hsh2]
    have hv : vstack ((s0 :: rest).map (fun st => st.getD layer [])) =
        some ((s0 :: rest).map (fun st => st.getD layer [])) := by
      simp only [List.map_cons, vstack]
      rw [if_pos]
      rw [List.all_eq_true]
      intro r hr
      rw [List.mem_map] at hr
      rcases hr with ⟨st, hst, rfl⟩
      rw [beq_iff_eq]
      exact hrowlen st (List.mem_cons_of_mem s0 hst)
    rcases statsOfMat_bands_nonneg sqrtFn
        ((s0 :: rest).map (fun st => st.getD layer [])) sortB (by simp)
      with ⟨mn, sd, el, eu, ix, hs_eq, hel, heu⟩
    refine ⟨(mn, sd, el, eu, ix), ?_, hel, heu⟩
    rw [hmapm]
    show (vstack ((s0 :: rest).map (fun st => st.getD layer []))).bind
        (fun mat => statsOfMat sqrtFn mat sortB 100) = some (mn, sd, el, eu, ix)
    rw [hv]
    show statsOfMat sqrtFn ((s0 :: rest).map (fun st => st.getD layer []))
        sortB 100 = some (mn, sd, el, eu, ix)
    exact hs_eq
  rcases optionMapM_total_prop hlayer with ⟨out, hout, hP⟩
  refine ⟨(unzip5 out).1, (unzip5 out).2.1, (unzip5 out).2.2.1,
    (unzip5 out).2.2.2.1, (unzip5 out).2.2.2.2, ?_, ?_, ?_⟩
  · simp only [compute_stats, hout]
    rfl
  · intro v hv
    have : v ∈ out.map (fun x => x.2.2.1) := by
      simpa [unzip5] using hv
    rw [List.mem_map] at this
    rcases this with ⟨t, ht, rfl⟩
    exact (hP t ht).1
  · intro v hv
    have : v ∈ out.map (fun x => x.2.2.2.1) := by
      simpa [unzip5] using hv
    rw [List.mem_map] at this
    rcases this with ⟨t, ht, rfl⟩
    exact (hP t ht).2

/-- Witness for C6 (amended) at two single-unit one-layer records with
`sort_by_mean` enabled. -/
theorem c6_witness :
    ([[[1]], [[3]]] : List StateMat) = [[1]] :: [[[3]]] ∧
    ∃ means stds els eus idxs,
      compute_stats (fun q => q) [[[1]], [[3]]] true 100 =
        some (means, stds, els, eus, idxs) ∧
      (∀ v ∈ els, ∀ x ∈ v, 0 ≤ x) ∧ (∀ v ∈ eus, ∀ x ∈ v, 0 ≤ x) :=
  ⟨rfl, c6_bands_nonneg_at_full_percent (fun q => q) [[[1]], [[3]]] [[1]] [[[3]]]
    rfl (by decide) true⟩

/-- Counterexample to C6 as stated: at the default `percent = 50` (inside
the claimed range `(0, 100]`) the records `[0], [10], [10], [10], [10]` of
one layer and one unit give mean 8 but 25th percentile 10, so the lower
error band is `-2 < 0`. -/
theorem optionMapM_singleton (f : α → Option β) (a : α) :
    optionMapM f [a] = (f a).map (fun b => [b]) := by
  cases h : f a <;> simp [optionMapM, h]

theorem c6_counterexample :
    ((0 : ℚ) < 50 ∧ (50 : ℚ) ≤ 100) ∧
    compute_stats (fun q => q) [[[0]], [[10]], [[10]], [[10]], [[10]]] false 50 =
      some ([[8]], [[16]], [[-2]], [[2]], [none]) ∧
    ¬ (0 : ℚ) ≤ -2 := by
  refine ⟨by norm_num, ?_, by norm_num⟩
  have hsort : List.insertionSort (· ≤ ·) [(0:ℚ),10,10,10,10] = [0,10,10,10,10] := by
    norm_num [List.insertionSort, List.orderedInsert]
  have hv25 : pctVal [(0:ℚ),10,10,10,10] 25 = 10 := by
    have hh : (25:ℚ) * ((([(0:ℚ),10,10,10,10].length : ℕ) : ℚ) - 1) / 100 = ((1:ℕ):ℚ) := by
      norm_num
    simp only [pctVal]
    rw [hh, ratFloor_natCast, Int.toNat_natCast]
    norm_num
  have hv75 : pctVal [(0:ℚ),10,10,10,10] 75 = 10 := by
    have hh : (75:ℚ) * ((([(0:ℚ),10,10,10,10].length : ℕ) : ℚ) - 1) / 100 = ((3:ℕ):ℚ) := by
      norm_num
    simp only [pctVal]
    rw [hh, ratFloor_natCast, Int.toNat_natCast]
    norm_num
  have hmean : listMean [(0:ℚ),10,10,10,10] = 8 := by
    norm_num [listMean, List.sum_cons, List.sum_nil]
  have hvar : listVar [(0:ℚ),10,10,10,10] = 16 := by
    norm_num [listVar, listMean, List.sum_cons, List.sum_nil]
  have hpct_l : percentile [(0:ℚ),10,10,10,10] ((100 - 50)/2) = some 10 := by
    rw [show ((100:ℚ) - 50)/2 = 25 by norm_num]
    simp only [percentile]
    rw [if_neg (by norm_num), hsort, hv25]
  have hpct_u : percentile [(0:ℚ),10,10,10,10] (50 + 50/2) = some 10 := by
    rw [show (50:ℚ) + 50/2 = 75 by norm_num]
    simp only [percentile]
    rw [if_neg (by norm_num), hsort, hv75]
  have hcols : (List.range (([[(0:ℚ)],[10],[10],[10],[10]] : List (List ℚ)).headD []).length).map
      (colOf [[0],[10],[10],[10],[10]]) = [[0,10,10,10,10]] := rfl
  have hopl : optionMapM (fun c => percentile c ((100 - (50:ℚ))/2)) [[(0:ℚ),10,10,10,10]] =
      some [(10:ℚ)] := by
    simp only [optionMapM, hpct_l]
  have hopu : optionMapM (fun c => percentile c (50 + (50:ℚ)/2)) [[(0:ℚ),10,10,10,10]] =
      some [(10:ℚ)] := by
    simp only [optionMapM, hpct_u]
  have hsm : statsOfMat (fun q => q) [[(0:ℚ)],[10],[10],[10],[10]] false 50 =
      some ([8],[16],[-2],[2],none) := by
    simp only [statsOfMat, hcols, hopl, hopu]
    simp only [List.map_cons, List.map_nil, hmean, hvar, List.zipWith_cons_cons]
    norm_num
  have hrecords : optionMapM (fun st => st.get? 0)
      ([[[0]], [[10]], [[10]], [[10]], [[10]]] : List StateMat) =
      some [[(0:ℚ)],[10],[10],[10],[10]] := rfl
  have hst : vstack [[(0:ℚ)],[10],[10],[10],[10]] = some [[0],[10],[10],[10],[10]] := rfl
  show (optionMapM (fun layer =>
      (optionMapM (fun st => st.get? layer)
        ([[[0]], [[10]], [[10]], [[10]], [[10]]] : List StateMat)).bind (fun state_list =>
      (vstack state_list).bind (fun mat =>
      statsOfMat (fun q => q) mat false 50)))
      (List.range 1)).map unzip5 = _
  have hbody : ((optionMapM (fun st => st.get? 0)
        ([[[0]], [[10]], [[10]], [[10]], [[10]]] : List StateMat)).bind (fun state_list =>
      (vstack state_list).bind (fun mat =>
      statsOfMat (fun q => q) mat false 50))) = some ([8],[16],[-2],[2],none) := by
    rw [hrecords]
    show (vstack [[(0:ℚ)],[10],[10],[10],[10]]).bind (fun mat =>
      statsOfMat (fun q => q) mat false 50) = _
    rw [hst]
    show statsOfMat (fun q => q) [[(0:ℚ)],[10],[10],[10],[10]] false 50 = _
    exact hsm
  rw [show List.range 1 = [0] from rfl, optionMapM_singleton]
  simp only [hbody]
  rfl


/-! ## Disk cache keys (`get_state_signature`, `get_tsne_projection`) -/

/-- Decimal digit character, as Python `str` renders digits. -/
def digitChar (d : ℕ) : Char := Char.ofNat (48 + d)

/-- Python `str(n)` for a non-negative integer: decimal digits, most
significant first. -/
def natStr (n : ℕ) : List Char :=
  if n = 0 then ['0'] else (Nat.digits 10 n).reverse.map digitChar

/-- Python `str(i)` for an int: a leading minus sign for negatives. -/
def intStr (i : ℤ) : List Char :=
  if i < 0 then '-' :: natStr (-i).toNat else natStr i.toNat

/-- Python `int(x)` on a float/rational: truncation toward zero. -/
def pyInt (q : ℚ) : ℤ := q.num.tdiv (q.den : ℤ)

/-- Source `'-'.join(parts)`. -/
def dashJoin : List (List Char) → List Char
  | [] => []
  | [p] => p
  | p :: ps => p ++ '-' :: dashJoin ps

/-- A key component free of the join delimiter. -/
abbrev noDash (s : List Char) : Prop := '-' ∉ s

/-- Source `layer_str = 'all' if layer is None else
''.join([str(l) for l in layer])` in `get_state_signature` (with the layer
argument already normalised to a list when not `None`). -/
def layerStrSig : Option (List ℤ) → List Char
  | none => "all".data
  | some l => (l.map intStr).flatten

/-- Source cache file name of `get_state_signature`:
`'-'.join([data_name, model_name, state_name, layer_str, str(sample_size),
str(dim) if dim is not None else str(sample_size)]) + '.pkl'`. -/
def sigKey (data model state : List Char) (layer : Option (List ℤ))
    (sample_size : ℕ) (dim : Option ℕ) : List Char :=
  dashJoin [data, model, state, layerStrSig layer, natStr sample_size,
    (match dim with | some d => natStr d | none => natStr sample_size)] ++
    ".pkl".data

/-- Source cache file name of `get_tsne_projection`:
`'-'.join([data_name, model_name, state_name, 'tsne', str(layer), str(dim),
str(int(perplexity))]) + '.pkl'`.  The `sample_size` parameter of the call
is NOT part of the name. -/
def tsneKey (data model state : List Char) (layer : ℤ) (dim : ℕ)
    (perplexity : ℚ) (sample_size : ℕ) : List Char :=
  dashJoin [data, model, state, "tsne".data, intStr layer, natStr dim,
    intStr (pyInt perplexity)] ++ ".pkl".data

theorem noDash_natStr (n : ℕ) : noDash (natStr n) := by
  rw [natStr, noDash]
  split
  · decide
  · intro hmem
    rw [List.mem_map] at hmem
    rcases hmem with ⟨d, hd, hdc⟩
    rw [List.mem_reverse] at hd
    have hlt : d < 10 := Nat.digits_lt_base (by norm_num) hd
    have : ∀ d2 < 10, digitChar d2 ≠ '-' := by decide
    exact this d hlt hdc

theorem digitChar_inj {a b : ℕ} (ha : a < 10) (hb : b < 10)
    (h : digitChar a = digitChar b) : a = b := by
  have : ∀ x < 10, ∀ y < 10, digitChar x = digitChar y → x = y := by decide
  exact this a ha b hb h

theorem map_digitChar_inj : ∀ {l1 l2 : List ℕ}, (∀ d ∈ l1, d < 10) →
    (∀ d ∈ l2, d < 10) → l1.map digitChar = l2.map digitChar → l1 = l2 := by
  intro l1
  induction l1 with
  | nil =>
    intro l2 _ _ h
    cases l2 with
    | nil => rfl
    | cons b t => simp at h
  | cons a t1 ih =>
    intro l2 h1 h2 h
    cases l2 with
    | nil => simp at h
    | cons b t2 =>
      simp only [List.map_cons, List.cons.injEq] at h
      have hab := digitChar_inj (h1 a (List.mem_cons_self a t1))
        (h2 b (List.mem_cons_self b t2)) h.1
      have ht := ih (fun d hd => h1 d (List.mem_cons_of_mem a hd))
        (fun d hd => h2 d (List.mem_cons_of_mem b hd)) h.2
      rw [hab, ht]

theorem natStr_inj {a b : ℕ} (h : natStr a = natStr b) : a = b := by
  by_cases ha : a = 0 <;> by_cases hb : b = 0
  · omega
  · exfalso
    rw [natStr, natStr, if_pos ha, if_neg hb] at h
    have hd : Nat.digits 10 b = [0] := by
      have hone : (Nat.digits 10 b).reverse.map digitChar = ['0'] := h.symm
      have hlen : (Nat.digits 10 b).length = 1 := by
        have := congrArg List.length hone
        simpa using this
      cases hdig : Nat.digits 10 b with
      | nil => rw [hdig] at hlen; simp at hlen
      | cons d t =>
        rw [hdig] at hlen
        simp at hlen
        subst hlen
        rw [hdig] at hone
        simp only [List.reverse_cons, List.reverse_nil, List.nil_append,
          List.map_cons, List.map_nil, List.cons.injEq] at hone
        have hdlt : d < 10 := Nat.digits_lt_base (by norm_num)
          (by rw [hdig]; exact List.mem_cons_self d _)
        have : d = 0 := by
          have h0 : digitChar 0 = '0' := by decide
          exact digitChar_inj hdlt (by norm_num) (by rw [hone.1, h0])
        rw [this]
    have := Nat.ofDigits_digits 10 b
    rw [hd] at this
    simp [Nat.ofDigits_cons, Nat.ofDigits_nil] at this
    exact hb this.symm
  · exfalso
    rw [natStr, natStr, if_neg ha, if_pos hb] at h
    have hd : Nat.digits 10 a = [0] := by
      have hone : (Nat.digits 10 a).reverse.map digitChar = ['0'] := h
      have hlen : (Nat.digits 10 a).length = 1 := by
        have := congrArg List.length hone
        simpa using this
      cases hdig : Nat.digits 10 a with
      | nil => rw [hdig] at hlen; simp at hlen
      | cons d t =>
        rw [hdig] at hlen
        simp at hlen
        subst hlen
        rw [hdig] at hone
        simp only [List.reverse_cons, List.reverse_nil, List.nil_append,
          List.map_cons, List.map_nil, List.cons.injEq] at hone
        have hdlt : d < 10 := Nat.digits_lt_base (by norm_num)
          (by rw [hdig]; exact List.mem_cons_self d _)
        have : d = 0 := by
          have h0 : digitChar 0 = '0' := by decide
          exact digitChar_inj hdlt (by norm_num) (by rw [hone.1, h0])
        rw [this]
    have := Nat.ofDigits_digits 10 a
    rw [hd] at this
    simp [Nat.ofDigits_cons, Nat.ofDigits_nil] at this
    exact ha this.symm
  · rw [natStr, natStr, if_neg ha, if_neg hb] at h
    have hmap := List.reverse_injective (map_digitChar_inj
      (fun d hd => Nat.digits_lt_base (by norm_num) (List.mem_reverse.mp hd))
      (fun d hd => Nat.digits_lt_base (by norm_num) (List.mem_reverse.mp hd)) h)
    have := congrArg (Nat.ofDigits 10) hmap
    rwa [Nat.ofDigits_digits, Nat.ofDigits_digits] at this

theorem splitDash : ∀ (p q x y : List Char), noDash p → noDash q →
    p ++ '-' :: x = q ++ '-' :: y → p = q ∧ x = y := by
  intro p
  induction p with
  | nil =>
    intro q x y _ hq h
    cases q with
    | nil => simpa using h
    | cons c q2 =>
      simp only [List.nil_append, List.cons_append, List.cons.injEq] at h
      exfalso
      exact hq (h.1 ▸ List.mem_cons_self c q2)
  | cons c p2 ih =>
    intro q x y hp hq h
    cases q with
    | nil =>
      simp only [List.cons_append, List.nil_append, List.cons.injEq] at h
      exfalso
      exact hp (h.1.symm ▸ List.mem_cons_self c p2)
    | cons c2 q2 =>
      simp only [List.cons_append, List.cons.injEq] at h
      have hp2 : noDash p2 := fun hc => hp (List.mem_cons_of_mem c hc)
      have hq2 : noDash q2 := fun hc => hq (List.mem_cons_of_mem c2 hc)
      rcases ih q2 x y hp2 hq2 h.2 with ⟨hpq, hxy⟩
      exact ⟨by rw [h.1, hpq], hxy⟩

theorem dashJoin_inj : ∀ (ps qs : List (List Char)), ps.length = qs.length →
    (∀ p ∈ ps, noDash p) → (∀ q ∈ qs, noDash q) →
    dashJoin ps = dashJoin qs → ps = qs := by
  intro ps
  induction ps with
  | nil =>
    intro qs hlen _ _ _
    cases qs with
    | nil => rfl
    | cons q qt => simp at hlen
  | cons p pt ih =>
    intro qs hlen hps hqs h
    cases qs with
    | nil => simp at hlen
    | cons q qt =>
      cases pt with
      | nil =>
        cases qt with
        | nil =>
          simp only [dashJoin] at h
          rw [h]
        | cons q2 qt2 => simp at hlen
      | cons p2 pt2 =>
        cases qt with
        | nil => simp at hlen
        | cons q2 qt2 =>
          have hjoin : p ++ '-' :: dashJoin (p2 :: pt2) =
              q ++ '-' :: dashJoin (q2 :: qt2) := h
          rcases splitDash p q _ _ (hps p (List.mem_cons_self p _))
            (hqs q (List.mem_cons_self q _)) hjoin with ⟨hpq, hrest⟩
          have htail := ih (q2 :: qt2) (by simpa using hlen)
            (fun x hx => hps x (List.mem_cons_of_mem p hx))
            (fun x hx => hqs x (List.mem_cons_of_mem q hx)) hrest
          rw [hpq, htail]

theorem intStr_nonneg {i : ℤ} (h : 0 ≤ i) : intStr i = natStr i.toNat := by
  rw [intStr, if_neg (by omega)]

theorem noDash_intStr_nonneg {i : ℤ} (h : 0 ≤ i) : noDash (intStr i) := by
  rw [intStr_nonneg h]
  exact noDash_natStr _

theorem intStr_nonneg_inj {i j : ℤ} (hi : 0 ≤ i) (hj : 0 ≤ j)
    (h : intStr i = intStr j) : i = j := by
  rw [intStr_nonneg hi, intStr_nonneg hj] at h
  have := natStr_inj h
  omega

theorem noDash_layerStrSig (layer : Option (List ℤ))
    (h : ∀ i ∈ layer.getD [], 0 ≤ i) : noDash (layerStrSig layer) := by
  cases layer with
  | none => decide
  | some l =>
    intro hmem
    rw [layerStrSig, List.mem_flatten] at hmem
    rcases hmem with ⟨part, hpart, hdash⟩
    rw [List.mem_map] at hpart
    rcases hpart with ⟨i, hi, rfl⟩
    exact noDash_intStr_nonneg (h i (by simpa using hi)) hdash

/-- C2 (amended).  The projection cache key is built only from the dataset,
model and state names, the layer, `dim`, and the integer part of the
perplexity: two calls differing only in `sample_size` (or in the fractional
part of the perplexity) share a key, while calls whose included components
differ (dash-free names, non-negative layer and truncated perplexity)
produce distinct keys.  The sampling cache key is likewise injective in its
rendered components: the names, the rendered layer selector string, the
sample size, and the rendered `dim` slot (which is `sample_size` itself when
`dim` is `None`). -/
theorem c2_cache_key_separation :
    (∀ (d m s : List Char) (layer : ℤ) (dim : ℕ) (p : ℚ) (ss1 ss2 : ℕ),
      tsneKey d m s layer dim p ss1 = tsneKey d m s layer dim p ss2) ∧
    (∀ (d m s d2 m2 s2 : List Char) (l l2 : ℤ) (dim dim2 : ℕ) (p p2 : ℚ)
      (ss ss2 : ℕ),
      noDash d → noDash m → noDash s → noDash d2 → noDash m2 → noDash s2 →
      0 ≤ l → 0 ≤ l2 → 0 ≤ pyInt p → 0 ≤ pyInt p2 →
      tsneKey d m s l dim p ss = tsneKey d2 m2 s2 l2 dim2 p2 ss2 →
      d = d2 ∧ m = m2 ∧ s = s2 ∧ l = l2 ∧ dim = dim2 ∧ pyInt p = pyInt p2) ∧
    (∀ (d m s d2 m2 s2 : List Char) (layer layer2 : Option (List ℤ))
      (ss ss2 : ℕ) (dim dim2 : Option ℕ),
      noDash d → noDash m → noDash s → noDash d2 → noDash m2 → noDash s2 →
      (∀ i ∈ layer.getD [], 0 ≤ i) → (∀ i ∈ layer2.getD [], 0 ≤ i) →
      sigKey d m s layer ss dim = sigKey d2 m2 s2 layer2 ss2 dim2 →
      d = d2 ∧ m = m2 ∧ s = s2 ∧ layerStrSig layer = layerStrSig layer2 ∧
        ss = ss2 ∧ dim.getD ss = dim2.getD ss2) := by
  refine ⟨fun d m s layer dim p ss1 ss2 => rfl, ?_, ?_⟩
  · intro d m s d2 m2 s2 l l2 dim dim2 p p2 ss ss2
    intro hd hm hs hd2 hm2 hs2 hl hl2 hp hp2 hkey
    have hjoin := List.append_cancel_right hkey
    have hparts := dashJoin_inj
      [d, m, s, "tsne".data, intStr l, natStr dim, intStr (pyInt p)]
      [d2, m2, s2, "tsne".data, intStr l2, natStr dim2, intStr (pyInt p2)]
      rfl
      (by
        intro x hx
        simp only [List.mem_cons, List.not_mem_nil, or_false] at hx
        rcases hx with rfl | rfl | rfl | rfl | rfl | rfl | rfl
        · exact hd
        · exact hm
        · exact hs
        · decide
        · exact noDash_intStr_nonneg hl
        · exact noDash_natStr _
        · exact noDash_intStr_nonneg hp)
      (by
        intro x hx
        simp only [List.mem_cons, List.not_mem_nil, or_false] at hx
        rcases hx with rfl | rfl | rfl | rfl | rfl | rfl | rfl
        · exact hd2
        · exact hm2
        · exact hs2
        · decide
        · exact noDash_intStr_nonneg hl2
        · exact noDash_natStr _
        · exact noDash_intStr_nonneg hp2)
      hjoin
    simp only [List.cons.injEq] at hparts
    refine ⟨hparts.1, hparts.2.1, hparts.2.2.1, ?_, ?_, ?_⟩
    · exact intStr_nonneg_inj hl hl2 hparts.2.2.2.2.1
    · exact natStr_inj hparts.2.2.2.2.2.1
    · exact intStr_nonneg_inj hp hp2 hparts.2.2.2.2.2.2.1
  · intro d m s d2 m2 s2 layer layer2 ss ss2 dim dim2
    intro hd hm hs hd2 hm2 hs2 hlay hlay2 hkey
    have hkey2 : dashJoin [d, m, s, layerStrSig layer, natStr ss,
        natStr (dim.getD ss)] ++ ".pkl".data =
        dashJoin [d2, m2, s2, layerStrSig layer2, natStr ss2,
        natStr (dim2.getD ss2)] ++ ".pkl".data := by
      cases dim <;> cases dim2 <;> simpa [sigKey] using hkey
    have hjoin := List.append_cancel_right hkey2
    have hparts := dashJoin_inj
      [d, m, s, layerStrSig layer, natStr ss, natStr (dim.getD ss)]
      [d2, m2, s2, layerStrSig layer2, natStr ss2, natStr (dim2.getD ss2)]
      rfl
      (by
        intro x hx
        simp only [List.mem_cons, List.not_mem_nil, or_false] at hx
        rcases hx with rfl | rfl | rfl | rfl | rfl | rfl
        · exact hd
        · exact hm
        · exact hs
        · exact noDash_layerStrSig layer hlay
        · exact noDash_natStr _
        · exact noDash_natStr _)
      (by
        intro x hx
        simp only [List.mem_cons, List.not_mem_nil, or_false] at hx
        rcases hx with rfl | rfl | rfl | rfl | rfl | rfl
        · exact hd2
        · exact hm2
        · exact hs2
        · exact noDash_layerStrSig layer2 hlay2
        · exact noDash_natStr _
        · exact noDash_natStr _)
      hjoin
    simp only [List.cons.injEq] at hparts
    exact ⟨hparts.1, hparts.2.1, hparts.2.2.1, hparts.2.2.2.1,
      natStr_inj hparts.2.2.2.2.1, natStr_inj hparts.2.2.2.2.2.1⟩

/-- Witness for C2 (amended): concrete sample-size-independence of the
projection key, and the injectivity conclusions at concrete dash-free
parameters. -/
theorem c2_witness :
    (tsneKey "a".data "b".data "c".data 1 50 40 5000 =
      tsneKey "a".data "b".data "c".data 1 50 40 7) ∧
    ("a".data = "a".data ∧ "b".data = "b".data ∧ "c".data = "c".data ∧
      (1 : ℤ) = 1 ∧ (50 : ℕ) = 50 ∧ pyInt 40 = pyInt 40) :=
  ⟨c2_cache_key_separation.1 "a".data "b".data "c".data 1 50 40 5000 7,
   c2_cache_key_separation.2.1 "a".data "b".data "c".data "a".data "b".data
     "c".data 1 1 50 50 40 40 5000 7 (by decide) (by decide) (by decide)
     (by decide) (by decide) (by decide) (by decide) (by decide) (by decide)
     (by decide) rfl⟩

/-- Counterexample to C2 as stated: two t-SNE projection calls that differ
in the `sample_size` parameter (5000 versus 1000) build the same cache file
name, because `get_tsne_projection` omits `sample_size` from the name. -/
theorem c2_counterexample :
    tsneKey "a".data "b".data "c".data 1 50 40 5000 =
      tsneKey "a".data "b".data "c".data 1 50 40 1000 ∧
    (5000 : ℕ) ≠ 1000 :=
  ⟨rfl, by decide⟩
